import Mathlib

/-!
Verification development for the academic-work-tracker time-entry engine
(`src/App.jsx`).  The JavaScript core is shallowly embedded: JS objects are
insertion-ordered association lists with string keys, JS numbers are exact
rationals (the engine's arithmetic is plain +, /, comparison on finite
values; the clamp-and-guard logic under scrutiny is representation
independent), and the handful of JS builtins the engine touches
(`parseFloat`, `Array.prototype.sort` on strings, `Date#getDay`) are
modelled explicitly next to the functions that use them.
-/

namespace AWT

/-- A JavaScript object: insertion-ordered list of key/value pairs.  Objects
built by the program always have pairwise-distinct keys (spread syntax
updates an existing key in place and appends a fresh one at the end). -/
abbrev JsObj (α : Type) := List (String × α)

/-- Property lookup `o[k]`: first binding of `k`, `none` for `undefined`. -/
def jsGet {α : Type} : JsObj α → String → Option α
  | [], _ => none
  | p :: rest, k => if p.1 = k then some p.2 else jsGet rest k

/-- `Object.keys(o)` in insertion order. -/
def jsKeys {α : Type} (o : JsObj α) : List String := o.map Prod.fst

/-- `Object.values(o)` in insertion order. -/
def jsValues {α : Type} (o : JsObj α) : List α := o.map Prod.snd

/-- Spread update `{...o, [k]: v}`: overwrite the value of an existing key
in place, otherwise append the new binding at the end. -/
def jsSet {α : Type} (o : JsObj α) (k : String) (v : α) : JsObj α :=
  if k ∈ jsKeys o then o.map (fun p => if p.1 = k then (k, v) else p)
  else o ++ [(k, v)]

/-- The keys of an object are pairwise distinct (true of every real JS
object; preserved by `jsSet`). -/
def ObjWF {α : Type} (o : JsObj α) : Prop := (jsKeys o).Nodup

instance ObjWF.instDecidable {α : Type} (o : JsObj α) : Decidable (ObjWF o) :=
  inferInstanceAs (Decidable ((jsKeys o).Nodup))

/-- The truthiness coercion `v || 0` applied to a (non-`NaN`) number:
`0` (and `-0`) map to `0`, everything else is returned unchanged.  On exact
rationals this is the identity, but it is kept explicit because the source
writes `(v || 0)` inside every reduction. -/
def orZero (v : ℚ) : ℚ := if v = 0 then 0 else v

/-- The entry ledger: date key to category key to task key to hours. -/
abbrev Ledger := JsObj (JsObj (JsObj ℚ))

/-- Model of the builtin `parseFloat` restricted to decimal numerals
(optional leading whitespace, optional sign, digits with an optional
fractional part, trailing garbage ignored); the exponent and `Infinity`
forms, which the tracker's numeric inputs never produce, are omitted.
`none` stands for `NaN`. -/
def parseDigits : ℕ → ℕ → List Char → ℕ × ℕ × List Char
  | acc, count, [] => (acc, count, [])
  | acc, count, c :: cs =>
    if c.isDigit then parseDigits (10 * acc + (c.toNat - 48)) (count + 1) cs
    else (acc, count, c :: cs)

/-- See `parseDigits`; the top-level `parseFloat` model. -/
def jsParseFloat (s : String) : Option ℚ :=
  let cs := s.toList.dropWhile (fun c => c.isWhitespace)
  let signAndRest : ℚ × List Char :=
    match cs with
    | '-' :: rest => (-1, rest)
    | '+' :: rest => (1, rest)
    | _ => (1, cs)
  let ipart := parseDigits 0 0 signAndRest.2
  let fpart :=
    match ipart.2.2 with
    | '.' :: rest => parseDigits 0 0 rest
    | _ => (0, 0, [])
  if ipart.2.1 = 0 ∧ fpart.2.1 = 0 then none
  else some (signAndRest.1 * ((ipart.1 : ℚ) + (fpart.1 : ℚ) / (10 : ℚ) ^ fpart.2.1))

/-- `const numValue = parseFloat(value) || 0` (App.jsx line 145): `NaN`
becomes `0`, `0`/`-0` become `0`, any other parsed number — negative ones
included — is kept as is. -/
def numValue (value : String) : ℚ :=
  match jsParseFloat value with
  | none => 0
  | some n => orZero n

/-- The spread source `...prev[date]` (an absent date spreads as the empty
object). -/
def cellDay (entries : Ledger) (date : String) : JsObj (JsObj ℚ) :=
  (jsGet entries date).getD []

/-- The spread source `...prev[date]?.[category]` (an absent level spreads
as the empty object). -/
def cellCat (entries : Ledger) (date category : String) : JsObj ℚ :=
  ((jsGet entries date).bind (fun day => jsGet day category)).getD []

/-- The nested spread writing one cell (App.jsx lines 146-155):
`{...prev, [date]: {...prev[date], [category]: {...prev[date]?.[category],
[task]: v}}}`. -/
def setCell (entries : Ledger) (date category task : String) (v : ℚ) : Ledger :=
  jsSet entries date
    (jsSet (cellDay entries date) category
      (jsSet (cellCat entries date category) task v))

/-- `updateEntry` (App.jsx lines 144-156): parse the raw input and write the
resulting number into the `(date, category, task)` cell. -/
def updateEntry (entries : Ledger) (date category task value : String) : Ledger :=
  setCell entries date category task (numValue value)

/-- Modify the value bound to key `k` in place (order and keys kept). -/
def mapAt {α : Type} (o : JsObj α) (k : String) (g : α → α) : JsObj α :=
  o.map (fun q => if q.1 = k then (q.1, g q.2) else q)

/-- The cell-absent counterpart of a ledger that holds a cell at
`(date, category, task)`: the same ledger with exactly that task binding
deleted.  This is not a program operation (the source has no delete verb —
a cell is only ever overwritten); it exists to denote the second of the
"two states" the zero-as-delete equivalence compares. -/
def removeCell (entries : Ledger) (date category task : String) : Ledger :=
  mapAt entries date (fun day =>
    mapAt day category (fun catObj =>
      catObj.filter (fun r => r.1 != task)))

/-- The raw stored value of one cell: the optional-chain read
`entries[date]?.[category]?.[task]` (`none` = `undefined`). -/
def lookupCell (entries : Ledger) (date category task : String) : Option ℚ :=
  ((jsGet entries date).bind (fun day => jsGet day category)).bind
    (fun cat => jsGet cat task)

/-- A JavaScript value as far as the cell read is concerned: a number or a
string. -/
inductive JsVal : Type
  | num (q : ℚ)
  | str (s : String)
deriving DecidableEq, Repr

/-- `getEntryValue` (App.jsx lines 158-160):
`entries[date]?.[category]?.[task] || ''` — an absent cell, and equally a
cell storing the falsy number `0`, yields the empty string. -/
def getEntryValue (entries : Ledger) (date category task : String) : JsVal :=
  match lookupCell entries date category task with
  | none => JsVal.str ""
  | some v => if v = 0 then JsVal.str "" else JsVal.num v

/-- `getDayTotal` (App.jsx lines 86-90): 0 for an absent date, otherwise the
sum over categories of the sum of `(v || 0)` over that category's tasks. -/
def getDayTotal (entries : Ledger) (date : String) : ℚ :=
  match jsGet entries date with
  | none => 0
  | some day =>
    ((jsValues day).map (fun catData => ((jsValues catData).map orZero).sum)).sum

/-- `getCategoryTotal` (App.jsx lines 92-95): 0 when the date or the
category is absent, otherwise the sum of `(v || 0)` over that category's
tasks. -/
def getCategoryTotal (entries : Ledger) (date category : String) : ℚ :=
  match (jsGet entries date).bind (fun day => jsGet day category) with
  | none => 0
  | some catData => ((jsValues catData).map orZero).sum

/-! Calendar utilities.  Calendar dates are modelled as integer day numbers
(days since the Unix epoch, which fell on a Thursday); `dow` is the builtin
`Date#getDay` (0 = Sunday .. 6 = Saturday) on that encoding. -/

/-- `Date#getDay` on integer day numbers: day 0 is a Thursday, so weekday
`(n + 4) mod 7` with 0 = Sunday. -/
def dow (n : ℤ) : ℤ := (n + 4) % 7

/-- Saturday-or-Sunday test used by the missing-data detector
(App.jsx line 112). -/
def isWeekend (n : ℤ) : Bool := dow n == 0 || dow n == 6

/-- The Monday computed inside `getWeekDates` (App.jsx lines 76-78):
`d.getDate() - (day === 0 ? 6 : day - 1)`. -/
def weekStart (x : ℤ) : ℤ := x - (if dow x = 0 then 6 else dow x - 1)

/-- `getWeekDates` (App.jsx lines 74-84): the Monday on or before the base
date followed by the next six consecutive days. -/
def getWeekDates (x : ℤ) : List ℤ :=
  (List.range 7).map (fun i => weekStart x + (i : ℤ))

/-- One record pushed by `getMissingDays` (App.jsx lines 124-132); the
purely cosmetic `formatted` label is omitted. -/
structure MissingDay where
  date : ℤ
  isWknd : Bool
deriving DecidableEq, Repr

/-- Weekend-run length looking backward from `n`; only used as the
termination measure of the detector's walk (a backward walk meets at most
two weekend days in a row: Sunday then Saturday). -/
def wkPen (n : ℤ) : ℕ := if dow n = 0 then 2 else if dow n = 6 then 1 else 0

/-- The `while (daysChecked < days)` walk of `getMissingDays`
(App.jsx lines 110-137): `r` is the remaining scanned-day budget and `cur`
the candidate day; weekend days are skipped without spending budget when
`incl` is false; a scanned day with zero total emits a record. -/
def missGo (dayTot : ℤ → ℚ) (incl : Bool) : ℕ → ℤ → List MissingDay
  | 0, _ => []
  | r + 1, cur =>
    if h : incl = false ∧ isWeekend cur = true then
      missGo dayTot incl (r + 1) (cur - 1)
    else
      (if dayTot cur = 0 then [⟨cur, isWeekend cur⟩] else []) ++
        missGo dayTot incl r (cur - 1)
termination_by n cur => n * 3 + wkPen cur
decreasing_by
  · have hw := h.2
    simp only [isWeekend, dow, Bool.or_eq_true, beq_iff_eq] at hw
    simp only [wkPen, dow]
    rcases hw with hw | hw <;> split_ifs <;> omega
  · simp only [wkPen, dow]
    split_ifs <;> omega

/-- The same walk recording every scanned day (used to state what
"scanned" means for `missGo`). -/
def scanGo (incl : Bool) : ℕ → ℤ → List ℤ
  | 0, _ => []
  | r + 1, cur =>
    if h : incl = false ∧ isWeekend cur = true then
      scanGo incl (r + 1) (cur - 1)
    else
      cur :: scanGo incl r (cur - 1)
termination_by n cur => n * 3 + wkPen cur
decreasing_by
  · have hw := h.2
    simp only [isWeekend, dow, Bool.or_eq_true, beq_iff_eq] at hw
    simp only [wkPen, dow]
    rcases hw with hw | hw <;> split_ifs <;> omega
  · simp only [wkPen, dow]
    split_ifs <;> omega

/-- A day the walk is willing to scan: any day when weekends are included,
weekdays only otherwise. -/
def eligibleDay (incl : Bool) (n : ℤ) : Bool := incl || !isWeekend n

/-- The number of eligible days `y` with `x < y ≤ cur` (used to give a
closed-form membership description of the walk). -/
def countEligible (incl : Bool) (x cur : ℤ) : ℕ :=
  (((List.range (cur - x).toNat).map (fun i => cur - Int.ofNat i)).filter
    (eligibleDay incl)).length

/-- `getMissingDays` (App.jsx lines 98-140): empty when the policy is
disabled, otherwise the walk starting at the day before today.  The ledger
is consumed only through the day-total read on the walked day's date key,
abstracted here as `dayTot`. -/
def getMissingDays (enabled : Bool) (days : ℕ) (incl : Bool)
    (dayTot : ℤ → ℚ) (today : ℤ) : List MissingDay :=
  if !enabled then [] else missGo dayTot incl days (today - 1)

/-! The aggregation and allocation statistics (App.jsx lines 304-392). -/

/-- Code-unit comparison of strings (JS default sort order), structurally
on the character lists. -/
def charListLe : List Char → List Char → Bool
  | [], _ => true
  | _ :: _, [] => false
  | a :: as, b :: bs =>
    if a.toNat < b.toNat then true
    else if b.toNat < a.toNat then false
    else charListLe as bs

/-- String comparison backing `Array.prototype.sort()` with no comparator
(lexicographic by code unit). -/
def strLe (s t : String) : Bool := charListLe s.toList t.toList

/-- Insertion step of the sort model. -/
def insertBy {α : Type} (le : α → α → Bool) (a : α) : List α → List α
  | [] => [a]
  | x :: xs => if le a x then a :: x :: xs else x :: insertBy le a xs

/-- Model of `Array.prototype.sort` (stable insertion sort; the engine only
relies on the output being ordered and a permutation). -/
def sortBy {α : Type} (le : α → α → Bool) (l : List α) : List α :=
  l.foldr (insertBy le) []

/-- `Object.keys(entries).filter(d => getDayTotal(d) > 0).sort()`
(App.jsx line 306): the active dates. -/
def allDates (entries : Ledger) : List String :=
  sortBy strLe
    ((jsKeys entries).filter (fun d => decide (0 < getDayTotal entries d)))

/-- The `categoryTotals` accumulator object (App.jsx lines 310-316). -/
structure CatTotals where
  Research : ℚ
  Teaching : ℚ
  Service : ℚ
  Other : ℚ
deriving DecidableEq, Repr

/-- A triple over the three working categories: used for the configured
allocation percentages, the actual percentages and the deltas. -/
structure WorkTriple where
  Research : ℚ
  Teaching : ℚ
  Service : ℚ
deriving DecidableEq, Repr

/-- `DEFAULT_ALLOCATION` (App.jsx lines 11-15). -/
def defaultAllocation : WorkTriple := ⟨40, 40, 20⟩

/-- The settings fields consumed by the statistics (App.jsx lines 30-40). -/
structure Settings where
  hoursPerWeek : ℚ
  carryoverHours : ℚ
  allocation : WorkTriple
deriving DecidableEq, Repr

/-- Per-category sums over the active dates (App.jsx lines 310-316). -/
def categoryTotalsOf (catTot : String → String → ℚ) (dates : List String) :
    CatTotals where
  Research := (dates.map (fun d => catTot d "Research")).sum
  Teaching := (dates.map (fun d => catTot d "Teaching")).sum
  Service := (dates.map (fun d => catTot d "Service")).sum
  Other := (dates.map (fun d => catTot d "Other")).sum

/-- `workingHoursTotal` (App.jsx line 318). -/
def workingOf (ct : CatTotals) : ℚ := ct.Research + ct.Teaching + ct.Service

/-- `actualPercentages` (App.jsx lines 321-325): division guarded by
`workingHoursTotal > 0`. -/
def actualOf (ct : CatTotals) : WorkTriple :=
  let w := workingOf ct
  { Research := if 0 < w then ct.Research / w * 100 else 0
    Teaching := if 0 < w then ct.Teaching / w * 100 else 0
    Service := if 0 < w then ct.Service / w * 100 else 0 }

/-- `allocationDiff` (App.jsx lines 327-331). -/
def diffOf (actual alloc : WorkTriple) : WorkTriple :=
  { Research := actual.Research - alloc.Research
    Teaching := actual.Teaching - alloc.Teaching
    Service := actual.Service - alloc.Service }

/-- `workingHoursTotal` as a function of the ledger. -/
def workingHoursTotal (entries : Ledger) : ℚ :=
  workingOf (categoryTotalsOf (getCategoryTotal entries) (allDates entries))

/-- `actualPercentages` as a function of the ledger. -/
def actualPercentages (entries : Ledger) : WorkTriple :=
  actualOf (categoryTotalsOf (getCategoryTotal entries) (allDates entries))

/-- `allocationDiff` as a function of the ledger and the configured
allocation. -/
def allocationDiff (entries : Ledger) (alloc : WorkTriple) : WorkTriple :=
  diffOf (actualPercentages entries) alloc

/-- One bucket of the weekly rollup (App.jsx line 338). -/
structure WeekBucket where
  Research : ℚ
  Teaching : ℚ
  Service : ℚ
  Other : ℚ
  total : ℚ
deriving DecidableEq, Repr

/-- The weekly rollup object (App.jsx lines 334-344): bucket per
`getWeekDates(date)[0]` key, accumulating the four category totals and the
day total of each active date. -/
def weeklyDataObj (weekKey : String → String) (dayTot : String → ℚ)
    (catTot : String → String → ℚ) (dates : List String) : JsObj WeekBucket :=
  dates.foldl
    (fun wd date =>
      let wk := weekKey date
      let cur := (jsGet wd wk).getD ⟨0, 0, 0, 0, 0⟩
      jsSet wd wk
        { Research := cur.Research + catTot date "Research"
          Teaching := cur.Teaching + catTot date "Teaching"
          Service := cur.Service + catTot date "Service"
          Other := cur.Other + catTot date "Other"
          total := cur.total + dayTot date })
    []

/-- `dayNames` (App.jsx line 356). -/
def dayNames : List String := ["Sun", "Mon", "Tue", "Wed", "Thu", "Fri", "Sat"]

/-- The zero-initialised `dayOfWeekTotals` object (App.jsx line 354). -/
def dowTotalsInit : JsObj ℚ :=
  [("Mon", 0), ("Tue", 0), ("Wed", 0), ("Thu", 0), ("Fri", 0), ("Sat", 0), ("Sun", 0)]

/-- The zero-initialised `dayOfWeekCounts` object (App.jsx line 355). -/
def dowCountsInit : JsObj ℕ :=
  [("Mon", 0), ("Tue", 0), ("Wed", 0), ("Thu", 0), ("Fri", 0), ("Sat", 0), ("Sun", 0)]

/-- The day-of-week accumulation loop (App.jsx lines 358-365); `dayIdx`
abstracts `new Date(date).getDay()` on the date key. -/
def dowAccum (dayIdx : String → ℕ) (dayTot : String → ℚ) (dates : List String) :
    JsObj ℚ × JsObj ℕ :=
  dates.foldl
    (fun tc date =>
      let dayName := dayNames.getD (dayIdx date) ""
      let hours := dayTot date
      if 0 < hours then
        (jsSet tc.1 dayName ((jsGet tc.1 dayName).getD 0 + hours),
         jsSet tc.2 dayName ((jsGet tc.2 dayName).getD 0 + 1))
      else tc)
    (dowTotalsInit, dowCountsInit)

/-- `dayOfWeekAvg` (App.jsx lines 367-370): guarded average per weekday. -/
def dayOfWeekAvgOf (acc : JsObj ℚ × JsObj ℕ) : List (String × ℚ) :=
  (jsKeys acc.1).map
    (fun day =>
      (day,
        if 0 < (jsGet acc.2 day).getD 0 then
          (jsGet acc.1 day).getD 0 / (((jsGet acc.2 day).getD 0 : ℕ) : ℚ)
        else 0))

/-- The derived-statistics record returned by `stats`
(App.jsx lines 379-392), restricted to its aggregation content (the chart
repackagings `radarData`/`categoryPercentages` only re-expose fields
already present here). -/
structure Stats where
  totalHours : ℚ
  categoryTotals : CatTotals
  workingHoursTotal : ℚ
  actualPercentages : WorkTriple
  allocationDiff : WorkTriple
  weeksWorked : ℕ
  daysWorked : ℕ
  avgWeek : ℚ
  avgDay : ℚ
  overUnder : ℚ
  weeklyData : List (String × WeekBucket)
  dayOfWeekAvg : List (String × ℚ)
deriving DecidableEq, Repr

/-- The body of the `stats` memo (App.jsx lines 305-392) as a function of
the active-date list and the two per-date reads it closes over. -/
def statsOfParts (weekKey : String → String) (dayIdx : String → ℕ)
    (settings : Settings) (dates : List String) (dayTot : String → ℚ)
    (catTot : String → String → ℚ) : Stats :=
  let totalHours := (dates.map dayTot).sum
  let ct := categoryTotalsOf catTot dates
  let w := workingOf ct
  let actual := actualOf ct
  let wd := weeklyDataObj weekKey dayTot catTot dates
  let weeksWorked := (jsKeys wd).length
  { totalHours := totalHours
    categoryTotals := ct
    workingHoursTotal := w
    actualPercentages := actual
    allocationDiff := diffOf actual settings.allocation
    weeksWorked := weeksWorked
    daysWorked := dates.length
    avgWeek := if 0 < weeksWorked then totalHours / (weeksWorked : ℚ) else 0
    avgDay := if 0 < dates.length then totalHours / (dates.length : ℚ) else 0
    overUnder := totalHours - (weeksWorked : ℚ) * settings.hoursPerWeek +
      settings.carryoverHours
    weeklyData := sortBy (fun a b => strLe a.1 b.1) wd
    dayOfWeekAvg := dayOfWeekAvgOf (dowAccum dayIdx dayTot dates) }

/-- `stats` (App.jsx lines 305-392): `null` when there is no active date,
otherwise the derived record.  `weekKey` abstracts
`getWeekDates(date)[0]` and `dayIdx` abstracts
`new Date(date).getDay()` on date keys. -/
def computeStats (weekKey : String → String) (dayIdx : String → ℕ)
    (settings : Settings) (entries : Ledger) : Option Stats :=
  let dates := allDates entries
  if dates = [] then none
  else
    some (statsOfParts weekKey dayIdx settings dates (getDayTotal entries)
      (getCategoryTotal entries))

/-! Taxonomy editing and the allocation banding. -/

/-- The two pieces of state touched by the taxonomy operations. -/
structure AppState where
  entries : Ledger
  categories : JsObj (List String)
deriving Repr

/-- `removeTask` (App.jsx lines 176-182), after the user confirms: filter
the task name out of that category's list; the entry ledger is not
touched. -/
def removeTask (s : AppState) (category task : String) : AppState :=
  { s with
    categories :=
      jsSet s.categories category
        (((jsGet s.categories category).getD []).filter (fun t => t != task)) }

/-- `diffClass` (App.jsx line 1431):
`Math.abs(diff) < 3 ? 'diff-neutral' : diff > 0 ? 'diff-positive' :
'diff-negative'`. -/
def diffClass (diff : ℚ) : String :=
  if |diff| < 3 then "diff-neutral"
  else if 0 < diff then "diff-positive"
  else "diff-negative"

/-- The condition under which the narrative over-allocation bullet for a
category is rendered (App.jsx lines 1489-1505): strictly greater than 5. -/
def overMessageShown (diff : ℚ) : Bool := decide (5 < diff)

/-- The condition under which the narrative under-allocation bullet for a
category is rendered (App.jsx lines 1489-1505): strictly less than -5. -/
def underMessageShown (diff : ℚ) : Bool := decide (diff < -5)

/-- Well-formedness of a ledger as a nest of real JS objects: pairwise
distinct keys at every level. -/
def LedgerWF (entries : Ledger) : Prop :=
  ObjWF entries ∧ ∀ p ∈ entries, ObjWF p.2 ∧ ∀ q ∈ p.2, ObjWF q.2

instance LedgerWF.instDecidable (entries : Ledger) :
    Decidable (LedgerWF entries) :=
  inferInstanceAs
    (Decidable (ObjWF entries ∧ ∀ p ∈ entries, ObjWF p.2 ∧ ∀ q ∈ p.2, ObjWF q.2))

/-! Basic lemmas about the JS-object model. -/

theorem jsGet_eq_none_iff {α : Type} (o : JsObj α) (k : String) :
    jsGet o k = none ↔ k ∉ jsKeys o := by
  induction o with
  | nil => simp [jsGet, jsKeys]
  | cons p rest ih =>
    by_cases hp : p.1 = k
    · simp [jsGet, jsKeys, hp]
    · simp only [jsGet, if_neg hp, jsKeys, List.map_cons, List.mem_cons, not_or]
      rw [ih]
      unfold jsKeys
      constructor
      · exact fun h => ⟨fun hk => hp hk.symm, h⟩
      · exact fun h => h.2

theorem mem_jsKeys_of_jsGet {α : Type} {o : JsObj α} {k : String} {v : α}
    (h : jsGet o k = some v) : k ∈ jsKeys o := by
  by_contra hn
  rw [← jsGet_eq_none_iff] at hn
  rw [h] at hn
  cases hn

theorem replaceMap_of_not_mem {α : Type} (o : JsObj α) (k : String) (v : α)
    (h : k ∉ jsKeys o) :
    o.map (fun p => if p.1 = k then (k, v) else p) = o := by
  induction o with
  | nil => rfl
  | cons p rest ih =>
    simp only [jsKeys, List.map_cons, List.mem_cons, not_or] at h
    simp only [List.map_cons]
    rw [if_neg (fun hp => h.1 hp.symm), ih (by unfold jsKeys; exact h.2)]

theorem jsGet_replaceMap {α : Type} (o : JsObj α) (k : String) (v : α)
    (hmem : k ∈ jsKeys o) :
    jsGet (o.map (fun p => if p.1 = k then (k, v) else p)) k = some v := by
  induction o with
  | nil => simp [jsKeys] at hmem
  | cons p rest ih =>
    by_cases hp : p.1 = k
    · simp [jsGet, hp]
    · have hk : k ∈ jsKeys rest := by
        simp only [jsKeys, List.map_cons, List.mem_cons] at hmem
        rcases hmem with h | h
        · exact absurd h.symm hp
        · exact h
      simpa [jsGet, hp] using ih hk

theorem jsGet_replaceMap_ne {α : Type} (o : JsObj α) (k k2 : String) (v : α)
    (h : k2 ≠ k) :
    jsGet (o.map (fun p => if p.1 = k then (k, v) else p)) k2 = jsGet o k2 := by
  induction o with
  | nil => rfl
  | cons p rest ih =>
    by_cases hp : p.1 = k
    · have : ¬(k = k2) := fun hk => h hk.symm
      simp [jsGet, hp, this, ih]
    · by_cases hp2 : p.1 = k2
      · simp only [List.map_cons, if_neg hp]
        simp [jsGet, hp2]
      · simp [jsGet, hp, hp2, ih]

theorem jsGet_append_of_none {α : Type} {o : JsObj α} {k : String}
    (o2 : JsObj α) (h : jsGet o k = none) :
    jsGet (o ++ o2) k = jsGet o2 k := by
  induction o with
  | nil => rfl
  | cons p rest ih =>
    by_cases hp : p.1 = k
    · simp [jsGet, hp] at h
    · simp only [jsGet, if_neg hp] at h
      simpa [jsGet, hp] using ih h

theorem jsGet_jsSet_self {α : Type} (o : JsObj α) (k : String) (v : α) :
    jsGet (jsSet o k v) k = some v := by
  unfold jsSet
  split_ifs with hmem
  · exact jsGet_replaceMap o k v hmem
  · rw [jsGet_append_of_none _ ((jsGet_eq_none_iff o k).mpr hmem)]
    simp [jsGet]

theorem jsGet_jsSet_ne {α : Type} (o : JsObj α) (k k2 : String) (v : α)
    (h : k2 ≠ k) :
    jsGet (jsSet o k v) k2 = jsGet o k2 := by
  unfold jsSet
  split_ifs with hmem
  · exact jsGet_replaceMap_ne o k k2 v h
  · cases hv : jsGet o k2 with
    | some w =>
      induction o with
      | nil => cases hv
      | cons p rest ih =>
        by_cases hp : p.1 = k2
        · simpa [jsGet, hp] using hv
        · simp only [jsGet, if_neg hp] at hv
          have hm2 : k ∉ jsKeys rest := by
            simp only [jsKeys, List.map_cons, List.mem_cons, not_or] at hmem
            unfold jsKeys
            exact hmem.2
          simpa [jsGet, hp] using ih hm2 hv
    | none =>
      rw [jsGet_append_of_none _ hv]
      have hkk : ¬(k = k2) := fun hk => h hk.symm
      simp [jsGet, hkk, hv]

theorem jsKeys_replaceMap {α : Type} (o : JsObj α) (k : String) (v : α) :
    jsKeys (o.map (fun p => if p.1 = k then (k, v) else p)) = jsKeys o := by
  induction o with
  | nil => rfl
  | cons p rest ih =>
    unfold jsKeys at ih ⊢
    simp only [List.map_cons, List.cons.injEq]
    by_cases hp : p.1 = k
    · rw [if_pos hp]
      exact ⟨hp.symm, ih⟩
    · rw [if_neg hp]
      exact ⟨rfl, ih⟩

theorem jsKeys_jsSet_of_mem {α : Type} (o : JsObj α) (k : String) (v : α)
    (hmem : k ∈ jsKeys o) : jsKeys (jsSet o k v) = jsKeys o := by
  rw [jsSet, if_pos hmem]
  exact jsKeys_replaceMap o k v

theorem jsKeys_jsSet_of_not_mem {α : Type} (o : JsObj α) (k : String) (v : α)
    (hmem : k ∉ jsKeys o) : jsKeys (jsSet o k v) = jsKeys o ++ [k] := by
  rw [jsSet, if_neg hmem]
  simp [jsKeys]

theorem jsValues_jsSet_of_not_mem {α : Type} (o : JsObj α) (k : String) (v : α)
    (hmem : k ∉ jsKeys o) : jsValues (jsSet o k v) = jsValues o ++ [v] := by
  rw [jsSet, if_neg hmem]
  simp [jsValues]

theorem jsGet_mem_pair {α : Type} {o : JsObj α} {k : String} {v : α}
    (h : jsGet o k = some v) : ∃ p ∈ o, p.1 = k ∧ p.2 = v := by
  induction o with
  | nil => cases h
  | cons p rest ih =>
    by_cases hp : p.1 = k
    · simp only [jsGet, if_pos hp] at h
      exact ⟨p, List.mem_cons_self p rest, hp, Option.some_injective _ h⟩
    · simp only [jsGet, if_neg hp] at h
      obtain ⟨q, hq, hq1, hq2⟩ := ih h
      exact ⟨q, List.mem_cons_of_mem p hq, hq1, hq2⟩

theorem sum_map_replace {α : Type} (o : JsObj α) (k : String) (v w : α)
    (f : α → ℚ) :
    ObjWF o → jsGet o k = some w →
    ((jsValues (o.map (fun p => if p.1 = k then (k, v) else p))).map f).sum =
      ((jsValues o).map f).sum - f w + f v := by
  induction o with
  | nil => intro _ hw; cases hw
  | cons p rest ih =>
    intro hnd hw
    by_cases hp : p.1 = k
    · have hw2 : w = p.2 := by
        simp only [jsGet, if_pos hp] at hw
        exact (Option.some_injective _ hw).symm
      have hkrest : k ∉ jsKeys rest := hp ▸ (List.nodup_cons.mp hnd).1
      rw [List.map_cons, if_pos hp, replaceMap_of_not_mem rest k v hkrest]
      simp only [jsValues, List.map_cons, List.sum_cons]
      rw [hw2]
      ring
    · have hw2 : jsGet rest k = some w := by simpa [jsGet, hp] using hw
      have hnd2 : ObjWF rest := (List.nodup_cons.mp hnd).2
      rw [List.map_cons, if_neg hp]
      simp only [jsValues, List.map_cons, List.sum_cons] at ih ⊢
      rw [ih hnd2 hw2]
      ring

theorem sum_map_values_jsSet_of_mem {α : Type} (o : JsObj α) (k : String)
    (v w : α) (f : α → ℚ) (hnd : ObjWF o) (hw : jsGet o k = some w) :
    ((jsValues (jsSet o k v)).map f).sum =
      ((jsValues o).map f).sum - f w + f v := by
  rw [jsSet, if_pos (mem_jsKeys_of_jsGet hw)]
  exact sum_map_replace o k v w f hnd hw

theorem mem_insertBy {α : Type} (le : α → α → Bool) (a b : α) (l : List α) :
    a ∈ insertBy le b l ↔ a = b ∨ a ∈ l := by
  induction l with
  | nil => simp [insertBy]
  | cons x xs ih =>
    unfold insertBy
    split_ifs with hle
    · simp [List.mem_cons]
    · simp only [List.mem_cons, ih]
      tauto

theorem mem_sortBy {α : Type} (le : α → α → Bool) (a : α) (l : List α) :
    a ∈ sortBy le l ↔ a ∈ l := by
  induction l with
  | nil => simp [sortBy]
  | cons x xs ih =>
    unfold sortBy at ih ⊢
    simp only [List.foldr_cons]
    rw [mem_insertBy]
    simp [List.mem_cons, ih]

theorem mapAt_of_not_mem {α : Type} (o : JsObj α) (k : String) (g : α → α)
    (h : k ∉ jsKeys o) : mapAt o k g = o := by
  induction o with
  | nil => rfl
  | cons p rest ih =>
    simp only [jsKeys, List.map_cons, List.mem_cons, not_or] at h
    unfold mapAt
    simp only [List.map_cons]
    rw [if_neg (fun hp => h.1 hp.symm)]
    have := ih (by unfold jsKeys; exact h.2)
    unfold mapAt at this
    rw [this]

theorem jsKeys_mapAt {α : Type} (o : JsObj α) (k : String) (g : α → α) :
    jsKeys (mapAt o k g) = jsKeys o := by
  induction o with
  | nil => rfl
  | cons p rest ih =>
    unfold mapAt jsKeys at ih ⊢
    simp only [List.map_cons, List.cons.injEq]
    by_cases hp : p.1 = k
    · rw [if_pos hp]
      exact ⟨rfl, ih⟩
    · rw [if_neg hp]
      exact ⟨rfl, ih⟩

theorem jsGet_mapAt_self {α : Type} (o : JsObj α) (k : String) (g : α → α) :
    jsGet (mapAt o k g) k = (jsGet o k).map g := by
  induction o with
  | nil => rfl
  | cons p rest ih =>
    unfold mapAt at ih ⊢
    by_cases hp : p.1 = k
    · simp [jsGet, hp]
    · simp [jsGet, hp, ih]

theorem jsGet_mapAt_ne {α : Type} (o : JsObj α) (k k2 : String) (g : α → α)
    (h : k2 ≠ k) : jsGet (mapAt o k g) k2 = jsGet o k2 := by
  induction o with
  | nil => rfl
  | cons p rest ih =>
    unfold mapAt at ih ⊢
    by_cases hp : p.1 = k
    · have hp2 : ¬(p.1 = k2) := fun he => h (he.symm.trans hp)
      have hkk : ¬(k = k2) := fun e => h e.symm
      simp [jsGet, hp, hp2, hkk, ih]
    · by_cases hp2 : p.1 = k2
      · simp only [List.map_cons, if_neg hp, jsGet, if_pos hp2]
      · simp [jsGet, hp, hp2, ih]

theorem sum_map_mapAt {α : Type} (o : JsObj α) (k : String) (g : α → α)
    (f : α → ℚ) :
    ObjWF o → ∀ w, jsGet o k = some w →
    ((jsValues (mapAt o k g)).map f).sum =
      ((jsValues o).map f).sum - f w + f (g w) := by
  induction o with
  | nil => intro _ w hw; cases hw
  | cons p rest ih =>
    intro hnd w hw
    by_cases hp : p.1 = k
    · have hw2 : w = p.2 := by
        simp only [jsGet, if_pos hp] at hw
        exact (Option.some_injective _ hw).symm
      have hkrest : k ∉ jsKeys rest := hp ▸ (List.nodup_cons.mp hnd).1
      unfold mapAt
      rw [List.map_cons, if_pos hp]
      have hrest := mapAt_of_not_mem rest k g hkrest
      unfold mapAt at hrest
      rw [hrest]
      simp only [jsValues, List.map_cons, List.sum_cons]
      rw [hw2]
      ring
    · have hw2 : jsGet rest k = some w := by simpa [jsGet, hp] using hw
      have hnd2 : ObjWF rest := (List.nodup_cons.mp hnd).2
      unfold mapAt at ih ⊢
      rw [List.map_cons, if_neg hp]
      simp only [jsValues, List.map_cons, List.sum_cons] at ih ⊢
      rw [ih hnd2 w hw2]
      ring

theorem jsGet_filter_self {α : Type} (o : JsObj α) (t : String) :
    jsGet (o.filter (fun r => r.1 != t)) t = none := by
  induction o with
  | nil => rfl
  | cons p rest ih =>
    rw [List.filter_cons]
    by_cases hp : p.1 = t
    · simp only [hp, bne_self_eq_false, if_neg Bool.false_ne_true]
      exact ih
    · simp only [if_pos (bne_iff_ne.mpr hp)]
      rw [jsGet, if_neg hp]
      exact ih

theorem jsGet_filter_ne {α : Type} (o : JsObj α) (t t2 : String)
    (h : t2 ≠ t) : jsGet (o.filter (fun r => r.1 != t)) t2 = jsGet o t2 := by
  induction o with
  | nil => rfl
  | cons p rest ih =>
    rw [List.filter_cons]
    by_cases hp : p.1 = t
    · have hp2 : ¬(p.1 = t2) := fun he => h (he.symm.trans hp)
      simp only [hp, bne_self_eq_false, if_neg Bool.false_ne_true]
      rw [ih, jsGet, if_neg hp2]
    · simp only [if_pos (bne_iff_ne.mpr hp)]
      by_cases hp2 : p.1 = t2
      · rw [jsGet, if_pos hp2, jsGet, if_pos hp2]
      · rw [jsGet, if_neg hp2, jsGet, if_neg hp2]
        exact ih

theorem filter_ne_of_not_mem {α : Type} (o : JsObj α) (t : String)
    (h : t ∉ jsKeys o) : o.filter (fun r => r.1 != t) = o := by
  induction o with
  | nil => rfl
  | cons p rest ih =>
    simp only [jsKeys, List.map_cons, List.mem_cons, not_or] at h
    rw [List.filter_cons, if_pos (bne_iff_ne.mpr (fun hp => h.1 hp.symm))]
    rw [ih (by unfold jsKeys; exact h.2)]

theorem catSum_filter_out_zero (catObj : JsObj ℚ) (t : String)
    (hnd : ObjWF catObj) (h0 : jsGet catObj t = some 0) :
    ((jsValues (catObj.filter (fun r => r.1 != t))).map orZero).sum =
      ((jsValues catObj).map orZero).sum := by
  induction catObj with
  | nil => cases h0
  | cons p rest ih =>
    by_cases hp : p.1 = t
    · have hp2 : p.2 = 0 := by
        simp only [jsGet, if_pos hp] at h0
        exact Option.some_injective _ h0
      have hkrest : t ∉ jsKeys rest := hp ▸ (List.nodup_cons.mp hnd).1
      rw [List.filter_cons]
      simp only [hp, bne_self_eq_false, if_neg Bool.false_ne_true]
      rw [filter_ne_of_not_mem rest t hkrest]
      simp [jsValues, hp2, orZero]
    · have h02 : jsGet rest t = some 0 := by simpa [jsGet, hp] using h0
      have hnd2 : ObjWF rest := (List.nodup_cons.mp hnd).2
      rw [List.filter_cons, if_pos (bne_iff_ne.mpr hp)]
      simp only [jsValues, List.map_cons, List.sum_cons] at ih ⊢
      rw [ih hnd2 h02]

/-! Claim theorems. -/

/-- C3 counterexample: on an empty ledger (every level of the path absent)
the per-cell read returns the empty string, not the number 0, refuting the
claim at a concrete input. -/
theorem getEntryValue_absent_cex :
    getEntryValue [] "2025-01-06" "Research" "Writing" = JsVal.str "" ∧
    JsVal.str "" ≠ JsVal.num 0 := by decide

/-- C3 (amended): reading a single cell's hours returns the empty string
(a falsy display value) whenever any level of the path is absent; the read
is total and never fails. -/
theorem getEntryValue_absent_amended (entries : Ledger) (d c t : String)
    (h : lookupCell entries d c t = none) :
    getEntryValue entries d c t = JsVal.str "" := by
  unfold getEntryValue
  rw [h]

/-- Witness for the amended C3 theorem at a concrete absent path. -/
theorem getEntryValue_absent_amended_witness :
    getEntryValue [] "2025-02-03" "Teaching" "Marking" = JsVal.str "" :=
  getEntryValue_absent_amended [] "2025-02-03" "Teaching" "Marking" (by decide)

/-- C9 counterexample: a delta of magnitude exactly 5 is NOT flagged by the
narrative messages (the source tests are strict `> 5` and `< -5`), refuting
the claimed ≥ 5 threshold. -/
theorem banding_threshold_cex :
    (5 : ℚ) ≤ |(5 : ℚ)| ∧ overMessageShown 5 = false ∧
    underMessageShown (-5) = false := by
  refine ⟨by norm_num, ?_, ?_⟩ <;> with_unfolding_all decide

/-- C9 (amended): a delta of magnitude strictly below 3 gets the neutral
color class, and the narrative over/under messages fire exactly for deltas
strictly greater than 5 respectively strictly less than -5 (magnitude up to
and including 5 is never flagged). -/
theorem banding_thresholds_amended (d : ℚ) :
    (|d| < 3 → diffClass d = "diff-neutral") ∧
    (5 < d → overMessageShown d = true) ∧
    (d < -5 → underMessageShown d = true) ∧
    (|d| ≤ 5 → overMessageShown d = false ∧ underMessageShown d = false) := by
  refine ⟨fun h => by rw [diffClass, if_pos h], fun h => ?_, fun h => ?_,
    fun h => ?_⟩
  · simp [overMessageShown, h]
  · simp [underMessageShown, h]
  · rw [abs_le] at h
    constructor
    · simp only [overMessageShown, decide_eq_false_iff_not, not_lt]
      linarith
    · simp only [underMessageShown, decide_eq_false_iff_not, not_lt]
      linarith

/-- Witness for the amended C9 theorem at concrete deltas. -/
theorem banding_thresholds_amended_witness :
    diffClass 2 = "diff-neutral" ∧ overMessageShown 7 = true ∧
    underMessageShown (-6) = true ∧ overMessageShown 4 = false :=
  ⟨(banding_thresholds_amended 2).1 (by norm_num),
   (banding_thresholds_amended 7).2.1 (by norm_num),
   (banding_thresholds_amended (-6)).2.2.1 (by norm_num),
   ((banding_thresholds_amended 4).2.2.2 (by norm_num)).1⟩

/-- C7: for every input day (Sunday included) `getWeekDates` returns
exactly the 7 consecutive days starting at the computed Monday, that start
day has weekday Monday, and it is the Monday on or before the input
(at most 6 days back). -/
theorem getWeekDates_week_of (x : ℤ) :
    getWeekDates x =
      [weekStart x, weekStart x + 1, weekStart x + 2, weekStart x + 3,
        weekStart x + 4, weekStart x + 5, weekStart x + 6] ∧
    (getWeekDates x).length = 7 ∧
    dow (weekStart x) = 1 ∧ weekStart x ≤ x ∧ x - 6 ≤ weekStart x := by
  have hlist : getWeekDates x =
      [weekStart x, weekStart x + 1, weekStart x + 2, weekStart x + 3,
        weekStart x + 4, weekStart x + 5, weekStart x + 6] := by
    unfold getWeekDates
    rw [show List.range 7 = [0, 1, 2, 3, 4, 5, 6] from rfl]
    norm_num
  refine ⟨hlist, by rw [hlist]; rfl, ?_, ?_, ?_⟩
  · unfold weekStart dow
    split_ifs with hd <;> omega
  · unfold weekStart dow
    split_ifs with hd <;> omega
  · unfold weekStart dow
    split_ifs with hd <;> omega

/-- C1 counterexample: writing the raw string "-3" stores the negative
number -3 (the source's `parseFloat(value) || 0` does not clamp negative
results), refuting the claimed clamp to `max(0, _)`. -/
theorem updateEntry_negative_stored_cex :
    lookupCell (updateEntry [] "2025-01-06" "Research" "Writing" "-3")
      "2025-01-06" "Research" "Writing" = some (-3) ∧ ((-3 : ℚ) < 0) := by
  with_unfolding_all decide

/-- C1 (amended): `setHours` parses the raw value and stores
`parseFloat(raw) || 0`: a parse failure stores 0 (never `NaN`), but a
negative parsed value is stored unchanged (no clamping); a subsequent read
of the cell yields the stored number when it is nonzero and the empty
string when it is 0. -/
theorem updateEntry_roundtrip_amended (entries : Ledger) (d c t raw : String) :
    lookupCell (updateEntry entries d c t raw) d c t = some (numValue raw) ∧
    (jsParseFloat raw = none → numValue raw = 0) ∧
    getEntryValue (updateEntry entries d c t raw) d c t =
      if numValue raw = 0 then JsVal.str "" else JsVal.num (numValue raw) := by
  have hcell : lookupCell (updateEntry entries d c t raw) d c t =
      some (numValue raw) := by
    unfold updateEntry setCell lookupCell cellDay cellCat
    simp [jsGet_jsSet_self]
  refine ⟨hcell, fun h => by unfold numValue; rw [h], ?_⟩
  unfold getEntryValue
  rw [hcell]

/-- Witness for the amended C1 theorem: "2.5" round-trips to 5/2 and the
unparseable "abc" stores 0. -/
theorem updateEntry_roundtrip_amended_witness :
    lookupCell (updateEntry [] "2025-01-06" "Research" "Writing" "2.5")
      "2025-01-06" "Research" "Writing" = some (5 / 2) ∧ numValue "abc" = 0 := by
  refine ⟨?_, (updateEntry_roundtrip_amended [] "x" "y" "z" "abc").2.1
    (by with_unfolding_all decide)⟩
  rw [(updateEntry_roundtrip_amended [] "2025-01-06" "Research" "Writing"
    "2.5").1]
  with_unfolding_all decide

/-- C10: writing one cell leaves the stored value of every other
(date, category, task) cell unchanged. -/
theorem updateEntry_frame (entries : Ledger) (d c t raw d2 c2 t2 : String)
    (h : ¬(d2 = d ∧ c2 = c ∧ t2 = t)) :
    lookupCell (updateEntry entries d c t raw) d2 c2 t2 =
      lookupCell entries d2 c2 t2 := by
  unfold updateEntry setCell lookupCell cellDay cellCat
  by_cases hd : d2 = d
  · subst hd
    by_cases hc : c2 = c
    · subst hc
      have ht : t2 ≠ t := fun hteq => h ⟨rfl, rfl, hteq⟩
      have ht2 : ¬(t = t2) := fun e => ht e.symm
      rw [jsGet_jsSet_self]
      cases hbind : (jsGet entries d2).bind (fun day => jsGet day c2) with
      | none =>
        simp [jsGet_jsSet_self, jsGet_jsSet_ne _ _ _ _ ht, hbind, jsGet, ht2]
      | some w =>
        simp [jsGet_jsSet_self, jsGet_jsSet_ne _ _ _ _ ht, hbind]
    · have hc2 : ¬(c = c2) := fun e => hc e.symm
      rw [jsGet_jsSet_self]
      cases hday : jsGet entries d2 with
      | none => simp [hday, jsGet_jsSet_ne _ _ _ _ hc, jsGet, hc2]
      | some day => simp [hday, jsGet_jsSet_ne _ _ _ _ hc]
  · rw [jsGet_jsSet_ne _ _ _ _ hd]

/-- Witness for C10 at a concrete pair of distinct cells. -/
theorem updateEntry_frame_witness :
    lookupCell (updateEntry [] "2025-01-06" "Research" "Writing" "4")
      "2025-01-06" "Research" "Reading" = none := by
  rw [updateEntry_frame [] "2025-01-06" "Research" "Writing" "4"
    "2025-01-06" "Research" "Reading" (by decide)]
  decide

/-- C2 counterexample: with hours logged only under `Other`, the working
total is 0 and the Research allocation delta is -40 (the negated default
target), not 0, refuting the claimed all-zero deltas. -/
theorem allocation_zero_deltas_cex :
    workingHoursTotal (updateEntry [] "2025-03-10" "Other" "Annual Leave" "5")
      = 0 ∧
    (allocationDiff (updateEntry [] "2025-03-10" "Other" "Annual Leave" "5")
        defaultAllocation).Research = -40 ∧
    ((-40 : ℚ) ≠ 0) := by
  with_unfolding_all decide

/-- C2 (amended): when the working-hours total is 0 every actual percentage
is exactly 0 (the division is guarded, no division error), and each
allocation delta equals the negated configured target percentage. -/
theorem allocation_zero_guard_amended (entries : Ledger) (alloc : WorkTriple)
    (h : workingHoursTotal entries = 0) :
    actualPercentages entries = ⟨0, 0, 0⟩ ∧
    allocationDiff entries alloc =
      ⟨-alloc.Research, -alloc.Teaching, -alloc.Service⟩ := by
  unfold workingHoursTotal at h
  have hact : actualPercentages entries = ⟨0, 0, 0⟩ := by
    simp [actualPercentages, actualOf, h]
  refine ⟨hact, ?_⟩
  unfold allocationDiff diffOf
  rw [hact]
  simp

/-- Witness for the amended C2 theorem on a concrete Other-only ledger. -/
theorem allocation_zero_guard_amended_witness :
    actualPercentages (updateEntry [] "2025-03-10" "Other" "Annual Leave" "5")
      = ⟨0, 0, 0⟩ :=
  (allocation_zero_guard_amended _ defaultAllocation
    (by with_unfolding_all decide)).1

/-- C8: `removeTask` edits the taxonomy only — the ledger, every day total
and every category total are unchanged, other categories' task lists are
unchanged, and the named task is filtered out of the given category's
list. -/
theorem removeTask_taxonomy_only (s : AppState) (category task : String) :
    (removeTask s category task).entries = s.entries ∧
    (∀ d, getDayTotal (removeTask s category task).entries d =
      getDayTotal s.entries d) ∧
    (∀ d c, getCategoryTotal (removeTask s category task).entries d c =
      getCategoryTotal s.entries d c) ∧
    (∀ c, c ≠ category →
      jsGet (removeTask s category task).categories c = jsGet s.categories c) ∧
    (∀ l, jsGet s.categories category = some l →
      jsGet (removeTask s category task).categories category =
        some (l.filter (fun t2 => t2 != task))) := by
  refine ⟨rfl, fun d => rfl, fun d c => rfl, fun c hc => ?_, fun l hl => ?_⟩
  · exact jsGet_jsSet_ne _ _ _ _ hc
  · simp [removeTask, jsGet_jsSet_self, hl]

/-- Witness for C8 on a concrete two-task taxonomy. -/
theorem removeTask_taxonomy_only_witness :
    jsGet (removeTask ⟨[], [("Research", ["Writing", "Reading"])]⟩ "Research"
        "Writing").categories "Research" = some ["Reading"] := by
  rw [(removeTask_taxonomy_only ⟨[], [("Research", ["Writing", "Reading"])]⟩
    "Research" "Writing").2.2.2.2 ["Writing", "Reading"] (by decide)]
  decide

theorem sum_over_keys_eq_values {α : Type} (o : JsObj α) (f : α → ℚ)
    (hnd : ObjWF o) :
    ((jsKeys o).map (fun k => ((jsGet o k).map f).getD 0)).sum =
      ((jsValues o).map f).sum := by
  induction o with
  | nil => rfl
  | cons p rest ih =>
    have hnotin : p.1 ∉ jsKeys rest := (List.nodup_cons.mp hnd).1
    have hndrest : ObjWF rest := (List.nodup_cons.mp hnd).2
    simp only [jsKeys, jsValues, List.map_cons, List.sum_cons] at ih ⊢
    congr 1
    · simp [jsGet]
    · rw [← ih hndrest]
      apply congrArg
      apply List.map_congr_left
      intro k hk
      have hne : ¬(p.1 = k) := fun he => hnotin (he ▸ hk)
      rw [jsGet, if_neg hne]

/-- C4: for every date whose category object has distinct keys (true of
every real ledger), the day total equals the sum of the per-category totals
over the categories present for that date; and for an absent date both the
day total and every category total are 0. -/
theorem dayTotal_consistency (entries : Ledger) (d : String)
    (h : ObjWF ((jsGet entries d).getD [])) :
    getDayTotal entries d =
      ((jsKeys ((jsGet entries d).getD [])).map
        (getCategoryTotal entries d)).sum ∧
    (jsGet entries d = none →
      getDayTotal entries d = 0 ∧ ∀ c, getCategoryTotal entries d c = 0) := by
  constructor
  · cases hday : jsGet entries d with
    | none => simp [getDayTotal, hday, jsKeys]
    | some day =>
      simp only [hday, Option.getD_some] at h ⊢
      have hcat : ∀ k ∈ jsKeys day, getCategoryTotal entries d k =
          ((jsGet day k).map (fun cd => ((jsValues cd).map orZero).sum)).getD 0 := by
        intro k _
        unfold getCategoryTotal
        rw [hday]
        cases hk : jsGet day k <;> simp [hk]
      rw [show getDayTotal entries d =
          ((jsValues day).map (fun cd => ((jsValues cd).map orZero).sum)).sum by
        unfold getDayTotal; rw [hday]]
      rw [← sum_over_keys_eq_values day _ h]
      exact (congrArg List.sum (List.map_congr_left hcat)).symm
  · intro hnone
    constructor
    · unfold getDayTotal
      rw [hnone]
    · intro c
      unfold getCategoryTotal
      rw [hnone]
      rfl

/-- Witness for C4 on a concrete one-day ledger. -/
theorem dayTotal_consistency_witness :
    getDayTotal [("2025-03-10", [("Research", [("Writing", (4 : ℚ))]),
        ("Teaching", [("Delivery", 3)])])] "2025-03-10" =
      ((jsKeys ((jsGet [("2025-03-10", [("Research", [("Writing", (4 : ℚ))]),
          ("Teaching", [("Delivery", 3)])])] "2025-03-10").getD [])).map
        (getCategoryTotal [("2025-03-10", [("Research", [("Writing", (4 : ℚ))]),
          ("Teaching", [("Delivery", 3)])])] "2025-03-10")).sum :=
  (dayTotal_consistency [("2025-03-10", [("Research", [("Writing", (4 : ℚ))]),
    ("Teaching", [("Delivery", 3)])])] "2025-03-10" (by decide)).1

theorem cellCat_eq (entries : Ledger) (d c : String) :
    cellCat entries d c = (jsGet (cellDay entries d) c).getD [] := by
  unfold cellCat cellDay
  cases jsGet entries d <;> rfl

theorem jsGet_cellCat_none {entries : Ledger} {d c t : String}
    (habs : lookupCell entries d c t = none) :
    jsGet (cellCat entries d c) t = none := by
  unfold lookupCell at habs
  unfold cellCat
  cases hb : (jsGet entries d).bind (fun day => jsGet day c) with
  | none => rfl
  | some w => rw [hb] at habs; simpa using habs

theorem ObjWF_cellDay {entries : Ledger} (hwf : LedgerWF entries)
    (d : String) : ObjWF (cellDay entries d) := by
  unfold cellDay
  cases hd : jsGet entries d with
  | none => simp [ObjWF, jsKeys]
  | some day =>
    obtain ⟨p, hpmem, hp1, hp2⟩ := jsGet_mem_pair hd
    have h2 := (hwf.2 p hpmem).1
    rw [Option.getD_some, ← hp2]
    exact h2

theorem catSum_setZero (entries : Ledger) (d c t : String)
    (habs : lookupCell entries d c t = none) :
    ((jsValues (jsSet (cellCat entries d c) t 0)).map orZero).sum =
      ((jsValues (cellCat entries d c)).map orZero).sum := by
  rw [jsValues_jsSet_of_not_mem _ _ _
    ((jsGet_eq_none_iff _ _).mp (jsGet_cellCat_none habs))]
  simp [orZero]

theorem daySum_setZero (entries : Ledger) (d c t : String)
    (hwf : LedgerWF entries) (habs : lookupCell entries d c t = none) :
    (List.map (fun cd => ((jsValues cd).map orZero).sum)
      (jsValues (jsSet (cellDay entries d) c
        (jsSet (cellCat entries d c) t 0)))).sum =
    (List.map (fun cd => ((jsValues cd).map orZero).sum)
      (jsValues (cellDay entries d))).sum := by
  by_cases hcmem : c ∈ jsKeys (cellDay entries d)
  · cases hw : jsGet (cellDay entries d) c with
    | none => exact absurd hcmem (by rw [← jsGet_eq_none_iff]; exact hw)
    | some w =>
      have hwcat : cellCat entries d c = w := by
        rw [cellCat_eq, hw]
        rfl
      have h1 := catSum_setZero entries d c t habs
      rw [hwcat] at h1
      rw [hwcat, sum_map_values_jsSet_of_mem _ _ _ w _ (ObjWF_cellDay hwf d) hw]
      simp only [h1]
      ring
  · have hcatnil : cellCat entries d c = [] := by
      rw [cellCat_eq, (jsGet_eq_none_iff _ _).mpr hcmem]
      rfl
    rw [jsValues_jsSet_of_not_mem _ _ _ hcmem, hcatnil]
    simp [jsSet, jsKeys, jsValues, orZero]

theorem getDayTotal_setCell_zero (entries : Ledger) (d c t : String)
    (hwf : LedgerWF entries) (habs : lookupCell entries d c t = none)
    (x : String) :
    getDayTotal (setCell entries d c t 0) x = getDayTotal entries x := by
  by_cases hx : x = d
  · subst hx
    unfold getDayTotal setCell
    rw [jsGet_jsSet_self]
    cases hd : jsGet entries x with
    | none =>
      have hday0 : cellDay entries x = [] := by unfold cellDay; rw [hd]; rfl
      have hcat0 : cellCat entries x c = [] := by unfold cellCat; rw [hd]; rfl
      rw [hday0, hcat0]
      simp [jsSet, jsKeys, jsValues, orZero, jsGet]
    | some day =>
      have hdayeq : cellDay entries x = day := by unfold cellDay; rw [hd]; rfl
      have h := daySum_setZero entries x c t hwf habs
      rw [hdayeq] at h
      rw [hdayeq]
      exact h
  · unfold getDayTotal setCell
    rw [jsGet_jsSet_ne _ _ _ _ hx]

theorem getCategoryTotal_setCell_zero (entries : Ledger) (d c t : String)
    (habs : lookupCell entries d c t = none)
    (x c2 : String) :
    getCategoryTotal (setCell entries d c t 0) x c2 =
      getCategoryTotal entries x c2 := by
  by_cases hx : x = d
  · subst hx
    unfold getCategoryTotal setCell
    rw [jsGet_jsSet_self]
    by_cases hc2 : c2 = c
    · subst hc2
      cases hb : (jsGet entries x).bind (fun day => jsGet day c2) with
      | none =>
        have hcat0 : cellCat entries x c2 = [] := by unfold cellCat; rw [hb]; rfl
        simp only [Option.some_bind, jsGet_jsSet_self, hb, hcat0]
        simp [jsSet, jsKeys, jsValues, jsGet, orZero]
      | some w =>
        have hwcat : cellCat entries x c2 = w := by unfold cellCat; rw [hb]; rfl
        have h1 := catSum_setZero entries x c2 t habs
        rw [hwcat] at h1
        simp only [Option.some_bind, jsGet_jsSet_self, hb, hwcat]
        simpa using h1
    · have hc2s : ¬(c = c2) := fun e => hc2 e.symm
      cases hd : jsGet entries x with
      | none =>
        have hday0 : cellDay entries x = [] := by unfold cellDay; rw [hd]; rfl
        simp only [Option.some_bind, hday0, hd]
        rw [jsGet_jsSet_ne _ _ _ _ hc2]
        simp [jsGet]
      | some day =>
        have hdayeq : cellDay entries x = day := by unfold cellDay; rw [hd]; rfl
        simp only [Option.some_bind, hdayeq, hd]
        rw [jsGet_jsSet_ne _ _ _ _ hc2]
  · unfold getCategoryTotal setCell
    rw [jsGet_jsSet_ne _ _ _ _ hx]

theorem allDates_setCell_zero (entries : Ledger) (d c t : String)
    (hwf : LedgerWF entries) (habs : lookupCell entries d c t = none) :
    allDates (setCell entries d c t 0) = allDates entries := by
  have hdt := getDayTotal_setCell_zero entries d c t hwf habs
  by_cases hmem : d ∈ jsKeys entries
  · have hkeys : jsKeys (setCell entries d c t 0) = jsKeys entries := by
      unfold setCell
      exact jsKeys_jsSet_of_mem _ _ _ hmem
    unfold allDates
    rw [hkeys]
    congr 1
    apply List.filter_congr
    intro x _
    rw [hdt x]
  · have hkeys : jsKeys (setCell entries d c t 0) = jsKeys entries ++ [d] := by
      unfold setCell
      exact jsKeys_jsSet_of_not_mem _ _ _ hmem
    have hd0 : getDayTotal entries d = 0 := by
      unfold getDayTotal
      rw [(jsGet_eq_none_iff entries d).mpr hmem]
    unfold allDates
    rw [hkeys, List.filter_append]
    have hsingle : List.filter
        (fun d2 => decide (0 < getDayTotal (setCell entries d c t 0) d2)) [d]
          = [] := by
      simp [List.filter, hdt d, hd0]
    rw [hsingle, List.append_nil]
    congr 1
    apply List.filter_congr
    intro x _
    rw [hdt x]

theorem computeStats_setCell_zero (entries : Ledger) (d c t : String)
    (hwf : LedgerWF entries) (habs : lookupCell entries d c t = none)
    (weekKey : String → String) (dayIdx : String → ℕ) (settings : Settings) :
    computeStats weekKey dayIdx settings (setCell entries d c t 0) =
      computeStats weekKey dayIdx settings entries := by
  have hDT : getDayTotal (setCell entries d c t 0) = getDayTotal entries :=
    funext (getDayTotal_setCell_zero entries d c t hwf habs)
  have hCT : getCategoryTotal (setCell entries d c t 0) =
      getCategoryTotal entries :=
    funext fun x => funext fun c2 =>
      getCategoryTotal_setCell_zero entries d c t habs x c2
  unfold computeStats
  rw [allDates_setCell_zero entries d c t hwf habs, hDT, hCT]

theorem mem_allDates_iff (entries : Ledger) (x : String) :
    x ∈ allDates entries ↔ 0 < getDayTotal entries x := by
  unfold allDates
  rw [mem_sortBy, List.mem_filter]
  constructor
  · rintro ⟨-, hp⟩
    exact of_decide_eq_true hp
  · intro hp
    refine ⟨?_, decide_eq_true hp⟩
    by_contra hn
    have hnone : jsGet entries x = none := (jsGet_eq_none_iff entries x).mpr hn
    unfold getDayTotal at hp
    rw [hnone] at hp
    exact lt_irrefl 0 hp

theorem lookupCell_unpack {entries : Ledger} {d c t : String} {v : ℚ}
    (h : lookupCell entries d c t = some v) :
    ∃ day catObj, jsGet entries d = some day ∧ jsGet day c = some catObj ∧
      jsGet catObj t = some v := by
  unfold lookupCell at h
  cases hd : jsGet entries d with
  | none => rw [hd] at h; cases h
  | some day =>
    rw [hd] at h
    simp only [Option.some_bind] at h
    cases hc : jsGet day c with
    | none => rw [hc] at h; cases h
    | some catObj =>
      rw [hc] at h
      simp only [Option.some_bind] at h
      exact ⟨day, catObj, rfl, hc, h⟩

theorem ObjWF_of_day {entries : Ledger} (hwf : LedgerWF entries)
    {d : String} {day : JsObj (JsObj ℚ)} (hd : jsGet entries d = some day) :
    ObjWF day ∧ ∀ q ∈ day, ObjWF q.2 := by
  obtain ⟨p, hpmem, hp1, hp2⟩ := jsGet_mem_pair hd
  have h2 := hwf.2 p hpmem
  rw [hp2] at h2
  exact h2

theorem ObjWF_of_cat {day : JsObj (JsObj ℚ)}
    (hq : ∀ q ∈ day, ObjWF q.2) {c : String} {catObj : JsObj ℚ}
    (hc : jsGet day c = some catObj) : ObjWF catObj := by
  obtain ⟨q, hqmem, hq1, hq2⟩ := jsGet_mem_pair hc
  have h2 := hq q hqmem
  rw [hq2] at h2
  exact h2

theorem getDayTotal_removeCell (entries : Ledger) (d c t : String)
    (hwf : LedgerWF entries) (h0 : lookupCell entries d c t = some 0)
    (x : String) :
    getDayTotal (removeCell entries d c t) x = getDayTotal entries x := by
  obtain ⟨day, catObj, hd, hc, ht⟩ := lookupCell_unpack h0
  by_cases hx : x = d
  · subst hx
    obtain ⟨hwfday, hwfq⟩ := ObjWF_of_day hwf hd
    have hwfcat := ObjWF_of_cat hwfq hc
    unfold getDayTotal removeCell
    rw [jsGet_mapAt_self, hd]
    simp only [Option.map_some']
    rw [sum_map_mapAt day c _ _ hwfday catObj hc]
    have hfc := catSum_filter_out_zero catObj t hwfcat ht
    simp only [hfc]
    ring
  · unfold getDayTotal removeCell
    rw [jsGet_mapAt_ne _ _ _ _ hx]

theorem getCategoryTotal_removeCell (entries : Ledger) (d c t : String)
    (hwf : LedgerWF entries) (h0 : lookupCell entries d c t = some 0)
    (x c2 : String) :
    getCategoryTotal (removeCell entries d c t) x c2 =
      getCategoryTotal entries x c2 := by
  obtain ⟨day, catObj, hd, hc, ht⟩ := lookupCell_unpack h0
  by_cases hx : x = d
  · subst hx
    obtain ⟨hwfday, hwfq⟩ := ObjWF_of_day hwf hd
    have hwfcat := ObjWF_of_cat hwfq hc
    unfold getCategoryTotal removeCell
    rw [jsGet_mapAt_self, hd]
    simp only [Option.map_some', Option.some_bind]
    by_cases hc2 : c2 = c
    · subst hc2
      rw [jsGet_mapAt_self, hc]
      simp only [Option.map_some']
      exact catSum_filter_out_zero catObj t hwfcat ht
    · rw [jsGet_mapAt_ne _ _ _ _ hc2]
  · unfold getCategoryTotal removeCell
    rw [jsGet_mapAt_ne _ _ _ _ hx]

theorem allDates_removeCell (entries : Ledger) (d c t : String)
    (hwf : LedgerWF entries) (h0 : lookupCell entries d c t = some 0) :
    allDates (removeCell entries d c t) = allDates entries := by
  have hdt := getDayTotal_removeCell entries d c t hwf h0
  have hkeys : jsKeys (removeCell entries d c t) = jsKeys entries := by
    unfold removeCell
    exact jsKeys_mapAt entries d _
  unfold allDates
  rw [hkeys]
  congr 1
  apply List.filter_congr
  intro x _
  rw [hdt x]

theorem computeStats_removeCell (entries : Ledger) (d c t : String)
    (hwf : LedgerWF entries) (h0 : lookupCell entries d c t = some 0)
    (weekKey : String → String) (dayIdx : String → ℕ) (settings : Settings) :
    computeStats weekKey dayIdx settings (removeCell entries d c t) =
      computeStats weekKey dayIdx settings entries := by
  have hDT : getDayTotal (removeCell entries d c t) = getDayTotal entries :=
    funext (getDayTotal_removeCell entries d c t hwf h0)
  have hCT : getCategoryTotal (removeCell entries d c t) =
      getCategoryTotal entries :=
    funext fun x => funext fun c2 =>
      getCategoryTotal_removeCell entries d c t hwf h0 x c2
  unfold computeStats
  rw [allDates_removeCell entries d c t hwf h0, hDT, hCT]

theorem lookupCell_removeCell_self (entries : Ledger) (d c t : String) :
    lookupCell (removeCell entries d c t) d c t = none := by
  unfold lookupCell removeCell
  rw [jsGet_mapAt_self]
  cases hd : jsGet entries d with
  | none => rfl
  | some day =>
    simp only [Option.map_some', Option.some_bind]
    rw [jsGet_mapAt_self]
    cases hc : jsGet day c with
    | none => rfl
    | some catObj =>
      simp only [Option.map_some', Option.some_bind]
      exact jsGet_filter_self catObj t

theorem lookupCell_removeCell_frame (entries : Ledger) (d c t : String)
    (d2 c2 t2 : String) (h : ¬(d2 = d ∧ c2 = c ∧ t2 = t)) :
    lookupCell (removeCell entries d c t) d2 c2 t2 =
      lookupCell entries d2 c2 t2 := by
  unfold lookupCell removeCell
  by_cases hd2 : d2 = d
  · subst hd2
    rw [jsGet_mapAt_self]
    cases hd : jsGet entries d2 with
    | none => rfl
    | some day =>
      simp only [Option.map_some', Option.some_bind]
      by_cases hc2 : c2 = c
      · subst hc2
        have ht2 : t2 ≠ t := fun hteq => h ⟨rfl, rfl, hteq⟩
        rw [jsGet_mapAt_self]
        cases hc : jsGet day c2 with
        | none => rfl
        | some catObj =>
          simp only [Option.map_some', Option.some_bind]
          exact jsGet_filter_ne catObj t t2 ht2
      · rw [jsGet_mapAt_ne _ _ _ _ hc2]
  · rw [jsGet_mapAt_ne _ _ _ _ hd2]

/-- C5: a cell holding 0 hours is statistically indistinguishable from an
absent cell.  For every well-formed ledger holding 0 at some
(date, category, task) — wherever in the object that binding sits, e.g.
after overwriting previously logged hours with 0 — the cell-absent
counterpart obtained by deleting exactly that binding agrees on every other
cell, every day total, every category total, the active-date list and the
whole derived-statistics record; and the active dates are exactly the
dates with strictly positive day total, so an all-zero day is excluded
from every statistic. -/
theorem zero_cell_statistically_invisible (entries : Ledger) (d c t : String)
    (hwf : LedgerWF entries) (h0 : lookupCell entries d c t = some 0) :
    lookupCell (removeCell entries d c t) d c t = none ∧
    (∀ d2 c2 t2, ¬(d2 = d ∧ c2 = c ∧ t2 = t) →
      lookupCell (removeCell entries d c t) d2 c2 t2 =
        lookupCell entries d2 c2 t2) ∧
    (∀ x, getDayTotal (removeCell entries d c t) x = getDayTotal entries x) ∧
    (∀ x c2, getCategoryTotal (removeCell entries d c t) x c2 =
      getCategoryTotal entries x c2) ∧
    allDates (removeCell entries d c t) = allDates entries ∧
    (∀ weekKey dayIdx settings,
      computeStats weekKey dayIdx settings (removeCell entries d c t) =
        computeStats weekKey dayIdx settings entries) ∧
    (∀ x, x ∈ allDates entries ↔ 0 < getDayTotal entries x) :=
  ⟨lookupCell_removeCell_self entries d c t,
   lookupCell_removeCell_frame entries d c t,
   getDayTotal_removeCell entries d c t hwf h0,
   getCategoryTotal_removeCell entries d c t hwf h0,
   allDates_removeCell entries d c t hwf h0,
   computeStats_removeCell entries d c t hwf h0,
   mem_allDates_iff entries⟩

/-- Witness for C5 on a concrete ledger holding a 0-cell in the middle of
its category object (the state reached by logging Writing then Reading and
then overwriting Writing with 0): deleting the 0-cell leaves the cell
absent and the day total unchanged. -/
theorem zero_cell_statistically_invisible_witness :
    lookupCell (removeCell
      [("2025-03-10", [("Research", [("Writing", (0 : ℚ)), ("Reading", 3)])])]
      "2025-03-10" "Research" "Writing") "2025-03-10" "Research" "Writing"
        = none ∧
    getDayTotal (removeCell
      [("2025-03-10", [("Research", [("Writing", (0 : ℚ)), ("Reading", 3)])])]
      "2025-03-10" "Research" "Writing") "2025-03-10" =
      getDayTotal
        [("2025-03-10", [("Research", [("Writing", (0 : ℚ)), ("Reading", 3)])])]
        "2025-03-10" := by
  have h := zero_cell_statistically_invisible
    [("2025-03-10", [("Research", [("Writing", (0 : ℚ)), ("Reading", 3)])])]
    "2025-03-10" "Research" "Writing" (by decide) (by decide)
  exact ⟨h.1, h.2.2.1 "2025-03-10"⟩

theorem missGo_eq_scanGo (dayTot : ℤ → ℚ) (incl : Bool) (n : ℕ) (cur : ℤ) :
    missGo dayTot incl n cur =
      ((scanGo incl n cur).filter (fun x => decide (dayTot x = 0))).map
        (fun x => (⟨x, isWeekend x⟩ : MissingDay)) := by
  induction n, cur using scanGo.induct incl with
  | case1 cur => rw [missGo.eq_1, scanGo.eq_1]; rfl
  | case2 r cur h ih =>
    rw [missGo.eq_2, scanGo.eq_2, dif_pos h, dif_pos h]
    exact ih
  | case3 r cur h ih =>
    rw [missGo.eq_2, scanGo.eq_2, dif_neg h, dif_neg h, List.filter_cons]
    by_cases h0 : dayTot cur = 0
    · simp [h0, ih]
    · simp [h0, ih]

theorem scanGo_length (incl : Bool) (n : ℕ) (cur : ℤ) :
    (scanGo incl n cur).length = n := by
  induction n, cur using scanGo.induct incl with
  | case1 cur => rw [scanGo.eq_1]; rfl
  | case2 r cur h ih => rw [scanGo.eq_2, dif_pos h]; exact ih
  | case3 r cur h ih => rw [scanGo.eq_2, dif_neg h]; simp [ih]

theorem scanGo_le (incl : Bool) (n : ℕ) (cur : ℤ) :
    ∀ x ∈ scanGo incl n cur, x ≤ cur := by
  induction n, cur using scanGo.induct incl with
  | case1 cur => rw [scanGo.eq_1]; simp
  | case2 r cur h ih =>
    rw [scanGo.eq_2, dif_pos h]
    intro x hx
    have := ih x hx
    omega
  | case3 r cur h ih =>
    rw [scanGo.eq_2, dif_neg h]
    intro x hx
    rcases List.mem_cons.mp hx with rfl | hx2
    · exact le_refl x
    · have := ih x hx2
      omega

theorem scanGo_sorted (incl : Bool) (n : ℕ) (cur : ℤ) :
    (scanGo incl n cur).Pairwise (· > ·) := by
  induction n, cur using scanGo.induct incl with
  | case1 cur => rw [scanGo.eq_1]; exact List.Pairwise.nil
  | case2 r cur h ih => rw [scanGo.eq_2, dif_pos h]; exact ih
  | case3 r cur h ih =>
    rw [scanGo.eq_2, dif_neg h]
    refine List.Pairwise.cons ?_ ih
    intro x hx
    have := scanGo_le incl r (cur - 1) x hx
    omega

theorem scanGo_no_weekend (n : ℕ) (cur : ℤ) :
    ∀ x ∈ scanGo false n cur, isWeekend x = false := by
  induction n, cur using scanGo.induct false with
  | case1 cur => rw [scanGo.eq_1]; simp
  | case2 r cur h ih => rw [scanGo.eq_2, dif_pos h]; exact ih
  | case3 r cur h ih =>
    rw [scanGo.eq_2, dif_neg h]
    intro x hx
    rcases List.mem_cons.mp hx with rfl | hx2
    · by_contra hw
      exact h ⟨rfl, by simpa using hw⟩
    · exact ih x hx2

theorem countEligible_of_le (incl : Bool) (x cur : ℤ) (h : cur ≤ x) :
    countEligible incl x cur = 0 := by
  unfold countEligible
  rw [show (cur - x).toNat = 0 from by omega]
  rfl

theorem countEligible_succ (incl : Bool) (x cur : ℤ) (h : x < cur) :
    countEligible incl x cur =
      (if eligibleDay incl cur then 1 else 0) +
        countEligible incl x (cur - 1) := by
  unfold countEligible
  rw [show (cur - x).toNat = ((cur - 1) - x).toNat + 1 from by omega]
  rw [List.range_succ_eq_map, List.map_cons, List.map_map]
  have hfun : ((fun i : ℕ => cur - Int.ofNat i) ∘ Nat.succ) =
      (fun j : ℕ => (cur - 1) - Int.ofNat j) := by
    funext j
    simp only [Function.comp_apply, Nat.succ_eq_add_one, Int.ofNat_eq_natCast]
    push_cast
    ring
  rw [hfun]
  have h0 : cur - Int.ofNat 0 = cur := by
    simp
  rw [h0, List.filter_cons]
  split_ifs with he
  · simp [Nat.add_comm]
  · simp

theorem scanGo_mem_iff (incl : Bool) (n : ℕ) (cur : ℤ) (x : ℤ) :
    x ∈ scanGo incl n cur ↔
      (eligibleDay incl x = true ∧ x ≤ cur ∧
        countEligible incl x cur < n) := by
  induction n, cur using scanGo.induct incl with
  | case1 cur =>
    rw [scanGo.eq_1]
    simp
  | case2 r cur h ih =>
    rw [scanGo.eq_2, dif_pos h, ih]
    have helig : eligibleDay incl cur = false := by
      simp [eligibleDay, h.1, h.2]
    by_cases hx : x < cur
    · have hc := countEligible_succ incl x cur hx
      rw [helig] at hc
      simp at hc
      constructor
      · rintro ⟨h1, h2, h3⟩
        exact ⟨h1, by omega, by omega⟩
      · rintro ⟨h1, h2, h3⟩
        exact ⟨h1, by omega, by omega⟩
    · constructor
      · rintro ⟨h1, h2, h3⟩
        exact ⟨h1, by omega, by omega⟩
      · rintro ⟨h1, h2, h3⟩
        have hxc : x = cur := by omega
        rw [hxc, helig] at h1
        cases h1
  | case3 r cur h ih =>
    rw [scanGo.eq_2, dif_neg h]
    have helig : eligibleDay incl cur = true := by
      cases hi : incl
      · rw [hi] at h
        simp only [not_and, forall_const] at h
        have hw : isWeekend cur = false := by
          cases hwc : isWeekend cur
          · rfl
          · exact absurd hwc h
        simp [eligibleDay, hi, hw]
      · simp [eligibleDay, hi]
    rw [List.mem_cons, ih]
    by_cases hxc : x = cur
    · subst hxc
      constructor
      · intro _
        refine ⟨helig, le_refl x, ?_⟩
        rw [countEligible_of_le incl x x (le_refl x)]
        omega
      · intro _
        left
        rfl
    · by_cases hx : x < cur
      · have hc := countEligible_succ incl x cur hx
        rw [helig] at hc
        simp at hc
        constructor
        · rintro (rfl | ⟨h1, h2, h3⟩)
          · exact absurd rfl hxc
          · exact ⟨h1, by omega, by omega⟩
        · rintro ⟨h1, h2, h3⟩
          right
          exact ⟨h1, by omega, by omega⟩
      · constructor
        · rintro (rfl | ⟨h1, h2, h3⟩)
          · exact absurd rfl hxc
          · exact ⟨h1, by omega, by omega⟩
        · rintro ⟨h1, h2, h3⟩
          exact absurd h2 (by omega)

/-- C6: the missing-data detector returns an empty result immediately when
disabled; when enabled it equals, in walk order, the zero-total days among
the scanned days starting at the day before today — where the scanned-day
list has exactly `days` elements, is strictly decreasing (newest first),
contains only days before today, contains no Saturday/Sunday when weekends
are excluded, and consists exactly of the `days` most recent policy-eligible
days (weekend skips do not consume the scanned-day budget). -/
theorem getMissingDays_spec (dayTot : ℤ → ℚ) (days : ℕ) (incl : Bool)
    (today : ℤ) :
    getMissingDays false days incl dayTot today = [] ∧
    getMissingDays true days incl dayTot today =
      ((scanGo incl days (today - 1)).filter
        (fun x => decide (dayTot x = 0))).map
        (fun x => (⟨x, isWeekend x⟩ : MissingDay)) ∧
    (scanGo incl days (today - 1)).length = days ∧
    (scanGo incl days (today - 1)).Pairwise (· > ·) ∧
    (∀ x ∈ scanGo incl days (today - 1), x < today) ∧
    (incl = false → ∀ x ∈ scanGo incl days (today - 1),
      isWeekend x = false) ∧
    (∀ x, x ∈ scanGo incl days (today - 1) ↔
      (eligibleDay incl x = true ∧ x ≤ today - 1 ∧
        countEligible incl x (today - 1) < days)) := by
  refine ⟨rfl, ?_, scanGo_length incl days (today - 1),
    scanGo_sorted incl days (today - 1), ?_, ?_, ?_⟩
  · unfold getMissingDays
    exact missGo_eq_scanGo dayTot incl days (today - 1)
  · intro x hx
    have := scanGo_le incl days (today - 1) x hx
    omega
  · intro hincl
    rw [hincl]
    exact scanGo_no_weekend days (today - 1)
  · exact scanGo_mem_iff incl days (today - 1)

/-- Witness for C6: with all day totals 0, a 3-day window excluding
weekends and today a Tuesday (day 12), the walk scans Monday 11, skips
Sunday 10 and Saturday 9 without spending budget, and scans Friday 8 and
Thursday 7; all three scanned days are flagged, newest first. -/
theorem getMissingDays_spec_witness :
    getMissingDays true 3 false (fun _ => 0) 12 =
      [⟨11, false⟩, ⟨8, false⟩, ⟨7, false⟩] ∧ isWeekend 8 = false := by
  have h := getMissingDays_spec (fun _ => 0) 3 false 12
  refine ⟨?_, h.2.2.2.2.2.1 rfl 8 ?_⟩
  · rw [h.2.1]
    simp [scanGo, isWeekend, dow]
  · simp [scanGo, isWeekend, dow]

end AWT
